import Mathlib

/-!
Verification development for the Turkish agglutinative inflection engine
(`inflection` package).  The definitions below are a shallow embedding of
the Go source: runes become `Char`, slices of runes become `List Char`,
and the zero rune (Go's "no character" sentinel) becomes `noChar`.
-/

namespace TM

/-- Go's zero rune, used by the source as the "no character" sentinel
(absent `prev`/`next` neighbour, unset suffix head or tail). -/
def noChar : Char := Char.ofNat 0

/-- The set of voiceless consonants (`voiceless` map in the source). -/
def voicelessChars : List Char := ['f', 's', 't', 'k', 'ç', 'ş', 'h', 'p']

/-- `voiceless[c]` lookup: membership in the voiceless set, `false` for
any other rune (Go map zero value). -/
def voicelessP (c : Char) : Prop := c ∈ voicelessChars

instance (c : Char) : Decidable (voicelessP c) := by unfold voicelessP; infer_instance

/-- The set of vowels (`vowel` map in the source); includes the two
placeholder vowels `A` and `I`. -/
def vowelChars : List Char := ['a', 'e', 'ı', 'i', 'o', 'ö', 'u', 'ü', 'A', 'I']

/-- `vowel[c]` lookup: membership in the vowel set, `false` for any other
rune (Go map zero value, in particular `false` for `noChar`). -/
def isVowelP (c : Char) : Prop := c ∈ vowelChars

instance (c : Char) : Decidable (isVowelP c) := by unfold isVowelP; infer_instance

/-- Vowel (harmony) qualities: the `quality` struct of the source, with
fields `front`, `round`, `high` in source order. -/
structure quality where
  front : Bool
  round : Bool
  high : Bool
deriving DecidableEq, Repr

/-- `vowel_to_quality` map of the source; a missing key yields the Go
zero value `{false, false, false}`. -/
def vowel_to_quality (c : Char) : quality :=
  if c = 'a' then ⟨false, false, false⟩
  else if c = 'e' then ⟨true, false, false⟩
  else if c = 'ı' then ⟨false, false, true⟩
  else if c = 'i' then ⟨true, false, true⟩
  else if c = 'o' then ⟨false, true, false⟩
  else if c = 'ö' then ⟨true, true, false⟩
  else if c = 'u' then ⟨false, true, true⟩
  else if c = 'ü' then ⟨true, true, true⟩
  else if c = 'A' then ⟨false, false, false⟩
  else if c = 'I' then ⟨false, false, true⟩
  else ⟨false, false, false⟩

/-- `quality_to_vowel` map of the source: front, round, high qualities,
in order, to exact vowels (total: all eight combinations are keys). -/
def quality_to_vowel (q : quality) : Char :=
  match q.front, q.round, q.high with
  | false, false, false => 'a'
  | true,  false, false => 'e'
  | false, false, true  => 'ı'
  | true,  false, true  => 'i'
  | false, true,  false => 'o'
  | true,  true,  false => 'ö'
  | false, true,  true  => 'u'
  | true,  true,  true  => 'ü'

/-- `resolve_vowel` of the source: takes a vowel and the front/round
harmony it should conform to; adjusts `A`/`I`, leaves exact vowels as
they are, and returns the resolved vowel together with its quality. -/
def resolve_vowel (v : Char) (front round : Bool) : quality × Char :=
  let v2 := if v = 'A' then quality_to_vowel ⟨front, false, false⟩
            else if v = 'I' then quality_to_vowel ⟨front, round, true⟩
            else v
  (vowel_to_quality v2, v2)

/-- First stage of `resolve_cons`: the voiced/voiceless mutation switch on
`B`/`C`/`D`/`K`, leaving every other rune unchanged. -/
def cons_mutate (prev c next : Char) : Char :=
  if isVowelP next ∧ prev ≠ noChar ∧ ¬ voicelessP prev then
    if c = 'B' then 'b' else if c = 'C' then 'c'
    else if c = 'D' then 'd' else if c = 'K' then 'g' else c
  else
    if c = 'B' then 'p' else if c = 'C' then 'ç'
    else if c = 'D' then 't' else if c = 'K' then 'k' else c

/-- Second stage of `resolve_cons`: `if vowel[prev] && c == g` then `ğ`. -/
def g_soften (prev c : Char) : Char :=
  if isVowelP prev ∧ c = 'g' then 'ğ' else c

/-- Third stage of `resolve_cons`: the nasal placeholder `N` becomes the
zero rune at a boundary (`next == 0`) and `n` otherwise. -/
def n_resolve (next c : Char) : Char :=
  if c = 'N' then (if next = noChar then noChar else 'n') else c

/-- `resolve_cons` of the source: consonant mutation of `B/C/D/K/N` (or an
exact consonant) based on the previous and next rune. -/
def resolve_cons (prev c next : Char) : Char :=
  n_resolve next (g_soften prev (cons_mutate prev c next))

/-- A `Suffix` of the source: optional single-rune head and tail (the zero
rune meaning "no character") and a body of runes. -/
structure Suffix where
  Head : Char
  Tail : Char
  Body : List Char
deriving DecidableEq, Repr

/-- A `Stem` is a list of runes, only the last of which may be an
unresolved placeholder. -/
abbrev Stem := List Char

/-- Head insertion step of `Stem.Append` (source line 158): the optional
suffix head is added iff it is the opposite vowel/consonant type of the
stem's final rune. -/
def head_step (stem : Stem) (su : Suffix) : Stem :=
  if su.Head ≠ noChar ∧ (isVowelP (stem.getLastD noChar) ≠ isVowelP su.Head)
  then stem ++ [su.Head] else stem

/-- Elision step of `Stem.Append` (source line 163): the buffer-final
vowel is dropped when the suffix body begins with a vowel. -/
def elision_step (s : Stem) (su : Suffix) : Stem :=
  if isVowelP (s.getLastD noChar) ∧ su.Body ≠ [] ∧ isVowelP (su.Body.headD noChar)
  then s.dropLast else s

/-- The working buffer of `Stem.Append` after steps 2–5: head insertion,
elision, body append, and tail append (`N` is pushed when the tail is
set). -/
def append_buffer (stem : Stem) (su : Suffix) : Stem :=
  (elision_step (head_step stem su) su) ++ su.Body ++
    (if su.Tail ≠ noChar then ['N'] else [])

/-- Exact (fully resolved) vowel: a vowel other than the placeholders
`A`/`I`.  This is the condition of the backward harmony scan. -/
def isExactVowelP (c : Char) : Prop := isVowelP c ∧ c ≠ 'A' ∧ c ≠ 'I'

instance (c : Char) : Decidable (isExactVowelP c) := by
  unfold isExactVowelP; infer_instance

/-- Boolean form of `isExactVowelP`, for `List.find?`. -/
def isExactVowelB (c : Char) : Bool := decide (isExactVowelP c)

/-- Backward harmony scan of `Stem.Append` (source lines 172–180): walk
indices `n-1, n-2, …, 0` of the working buffer and return the front/round
quality of the first exact vowel found, defaulting to back/unrounded.
The first match of the loop is the first element of the reversed
`n`-prefix. -/
def harmony_scan (s : List Char) (n : Nat) : Bool × Bool :=
  match (s.take n).reverse.find? isExactVowelB with
  | some v => ((vowel_to_quality v).front, (vowel_to_quality v).round)
  | none => (false, false)

/-- Forward resolution pass of `Stem.Append` (source lines 182–200),
processing the buffer from index `len(stem)-1` on.  `prev` is the rune to
the left of the current position (the zero rune at index 0); the source
loop reads it back from the buffer, so it is always the already-resolved
form, which this recursion carries along.  The final element is the
buffer-final rune: the loop stops before it, and it is then resolved only
when it is a vowel (source line 198), using the harmony context as left
by the loop. -/
def resolve_run (prev : Char) (front round : Bool) : List Char → List Char
  | [] => []
  | [c] => [if isVowelP c then (resolve_vowel c front round).2 else c]
  | c :: c2 :: rest =>
    if isVowelP c then
      (resolve_vowel c front round).2 ::
        resolve_run (resolve_vowel c front round).2
          (resolve_vowel c front round).1.front
          (resolve_vowel c front round).1.round (c2 :: rest)
    else
      resolve_cons prev c c2 ::
        resolve_run (resolve_cons prev c c2) front round (c2 :: rest)

/-- `Stem.Append` of the source: combines the suffix with the stem,
resolving the consonant and vowel harmonies of the suffix and the final
consonant of the original stem, but leaving the new final rune unresolved
unless it is a vowel.  The source indexes `s[len(stem)-1-1]` for the
initial `prev`; an empty stem is a caller contract violation (the Go code
would panic), so the definitions below are only claimed for non-empty
stems. -/
def Stem.Append (stem : Stem) (su : Suffix) : Stem :=
  let s := append_buffer stem su
  let fr := harmony_scan s stem.length
  let prev0 := if stem.length - 1 = 0 then noChar else s.getD (stem.length - 2) noChar
  s.take (stem.length - 1) ++
    resolve_run prev0 fr.1 fr.2 (s.drop (stem.length - 1))

/-- `Stem.Word` of the source: fully resolves the stem by resolving the
final consonant with no following context (`prev` and `next` both the
zero rune). -/
def Stem.Word (stem : Stem) : List Char :=
  if isVowelP (stem.getLastD noChar) then stem
  else stem.set (stem.length - 1) (resolve_cons noChar (stem.getLastD noChar) noChar)

example : Stem.Append ['y', 'a', 'p'] ⟨noChar, noChar, ['I', 'y', 'o', 'r']⟩ =
    ['y', 'a', 'p', 'ı', 'y', 'o', 'r'] := by decide

example : Stem.Append ['y', 'a', 'p', 'ı', 'y', 'o', 'r'] ⟨'y', noChar, ['s', 'A']⟩ =
    ['y', 'a', 'p', 'ı', 'y', 'o', 'r', 's', 'a'] := by decide

example : Stem.Append ['b', 'u', 'N'] ⟨noChar, noChar, ['l', 'A', 'r']⟩ =
    ['b', 'u', 'n', 'l', 'a', 'r'] := by decide

/-! ## Notation parser (`ParseRoot`, `ParseSuffix`, `ParseRootSuffixes`) -/

/-- Whitespace as recognised by the source's `\s` character class and by
`strings.Fields` on ASCII input. -/
def isSpaceChar (c : Char) : Prop :=
  c = ' ' ∨ c = '\t' ∨ c = '\n' ∨ c = '\x0d' ∨ c = '\x0b' ∨ c = '\x0c'

instance (c : Char) : Decidable (isSpaceChar c) := by unfold isSpaceChar; infer_instance

/-- Strip the leading and trailing whitespace that the parsing regexes
consume via `^\s*` and `\s*$`. -/
def trimWS (l : List Char) : List Char :=
  ((l.dropWhile (fun c => decide (isSpaceChar c))).reverse.dropWhile
    (fun c => decide (isSpaceChar c))).reverse

/-- `strings.Fields`: split on runs of whitespace, producing the list of
maximal non-whitespace tokens.  `acc` is the current token, reversed. -/
def fieldsAux : List Char → List Char → List (List Char)
  | [], acc => if acc = [] then [] else [acc.reverse]
  | c :: cs, acc =>
    if isSpaceChar c then
      (if acc = [] then fieldsAux cs [] else acc.reverse :: fieldsAux cs [])
    else fieldsAux cs (c :: acc)

/-- `strings.Fields` of the source. -/
def fields (l : List Char) : List (List Char) := fieldsAux l []

/-- The exact lowercase alphabet `[a-zçğıöşü]` of the root/suffix
grammars. -/
def exactChars : List Char :=
  ['a', 'b', 'c', 'd', 'e', 'f', 'g', 'h', 'i', 'j', 'k', 'l', 'm',
   'n', 'o', 'p', 'q', 'r', 's', 't', 'u', 'v', 'w', 'x', 'y', 'z',
   'ç', 'ğ', 'ı', 'ö', 'ş', 'ü']

/-- Membership in the exact alphabet. -/
def isExact (c : Char) : Prop := c ∈ exactChars

instance (c : Char) : Decidable (isExact c) := by unfold isExact; infer_instance

/-- The character class `[a-zçğıöşüBCDKAI]` of the suffix grammar. -/
def suffixChars : List Char := exactChars ++ ['B', 'C', 'D', 'K', 'A', 'I']

/-- `ParseRoot` of the source, as the function computed by the regex
`^\s*([a-zçğıöşü]*)(?:([a-zçğıöşüBCDK])|(?:\((n)\)))\s*$`: after trimming,
either exact letters followed by `(n)` (normalised to a final `N`), or a
non-empty string of exact letters whose final rune may also be one of
`B/C/D/K`.  Failure is `none` (Go returns `Root("")` and `false`). -/
def ParseRoot (l : List Char) : Option (List Char) :=
  let u := trimWS l
  if 3 ≤ u.length ∧ u.drop (u.length - 3) = ['(', 'n', ')'] ∧
      ∀ c ∈ u.take (u.length - 3), isExact c then
    some (u.take (u.length - 3) ++ ['N'])
  else if u ≠ [] ∧ (∀ c ∈ u.dropLast, isExact c) ∧
      (isExact (u.getLastD noChar) ∨ u.getLastD noChar ∈ (['B', 'C', 'D', 'K'] : List Char)) then
    some u
  else none

/-- `ParseSuffix` of the source, as the function computed by the regex
`^\s*(?:\(([a-zçğıöşüBCDKAI])\))?([a-zçğıöşüBCDKAI]+)(?:\((n)\))?\s*$`:
an optional parenthesised single head character, a non-empty body of
suffix characters, and an optional `(n)` tail (stored as `'n'`, matching
the Go capture).  Failure is `none` (Go returns the zero `Suffix` and
`false`). -/
def ParseSuffix (l : List Char) : Option Suffix :=
  let u := trimWS l
  let hu : Char × List Char :=
    match u with
    | '(' :: c :: ')' :: rest => if c ∈ suffixChars then (c, rest) else (noChar, u)
    | _ => (noChar, u)
  let body := hu.2.takeWhile (fun c => decide (c ∈ suffixChars))
  let rest := hu.2.dropWhile (fun c => decide (c ∈ suffixChars))
  if body = [] then none
  else if rest = [] then some ⟨hu.1, noChar, body⟩
  else if rest = ['(', 'n', ')'] then some ⟨hu.1, 'n', body⟩
  else none

/-- The suffix-parsing loop of `ParseRootSuffixes`: parse each token in
order, aborting at the first failure. -/
def parseSuffixLoop : List (List Char) → Option (List Suffix)
  | [] => some []
  | w :: ws =>
    match ParseSuffix w with
    | none => none
    | some suf => (parseSuffixLoop ws).map (fun sufs => suf :: sufs)

/-- `ParseRootSuffixes` of the source: split the input into
whitespace-delimited tokens, fail on zero tokens, parse the first as the
root and the rest as suffixes in order; any failure yields `none` (Go
returns nil root, nil suffix slice and `false`). -/
def ParseRootSuffixes (l : List Char) : Option (List Char × List Suffix) :=
  match fields l with
  | [] => none
  | w :: ws =>
    match ParseRoot w with
    | none => none
    | some root =>
      match parseSuffixLoop ws with
      | none => none
      | some sufs => some (root, sufs)

example : ParseRoot "bu(n)".toList = some ['b', 'u', 'N'] := by decide

example : ParseRoot "yaN".toList = none := by decide

example : ParseSuffix "(s)I(n)".toList = some ⟨'s', 'n', ['I']⟩ := by decide

example : ParseSuffix "(I)".toList = none := by decide

example : ParseRootSuffixes "yap Iyor (y)sA (I)m".toList =
    some (['y', 'a', 'p'],
      [⟨noChar, noChar, ['I', 'y', 'o', 'r']⟩,
       ⟨'y', noChar, ['s', 'A']⟩,
       ⟨'I', noChar, ['m']⟩]) := by decide

/-- Fold a parsed line through `Stem.Append` and finalize with
`Stem.Word`, as `main.go` and the tests do. -/
def inflectLine (l : List Char) : Option (List Char) :=
  (ParseRootSuffixes l).map (fun rs => Stem.Word (rs.2.foldl Stem.Append rs.1))

/- The two worked chains of the source's `TestAppend`, reproduced by the
embedding end to end. -/
example : inflectLine "bu(n) lAr (n)In ki lAr DAn mI (y)mIş".toList =
    some "bunlarınkilerdenmiymiş".toList := by decide

example :
    (ParseRootSuffixes "tanı (I)ş DIr (I)l (y)AmA (y)Abil (y)AcAK lAr DAn (y)mIş çA (s)I(n) (y)A".toList).map
      (fun rs => rs.2.foldl Stem.Append rs.1) =
    some "tanıştırılamayabileceklerdenmişçesine".toList := by decide

/-! ## Go slice memory model

`Stem.Append` is specified to never mutate its input.  To state this, the
function is transcribed a second time over an explicit model of Go slice
semantics: a heap of backing arrays, slices as (array id, offset, length,
capacity), `make` allocating a fresh array, element assignment writing in
place, and `append` writing in place below capacity and reallocating at
capacity.  (Go's exact capacity-growth policy is implementation-defined;
the doubling used here only affects when reallocation happens, never the
contents of other arrays, which is what the claims are about.) -/

/-- A Go slice header: backing array id, offset, length and capacity. -/
structure GoSlice where
  arr : Nat
  off : Nat
  len : Nat
  cap : Nat
deriving DecidableEq, Repr

/-- The heap: backing arrays indexed by id. -/
abbrev Heap := List (List Char)

/-- Read a backing array (absent ids read as empty). -/
def readArr (h : Heap) (id : Nat) : List Char := h.getD id []

/-- `s[i]` for a slice. -/
def sread (h : Heap) (s : GoSlice) (i : Nat) : Char :=
  (readArr h s.arr).getD (s.off + i) noChar

/-- `s[i] = c` for a slice: writes the backing array in place. -/
def swrite (h : Heap) (s : GoSlice) (i : Nat) (c : Char) : Heap :=
  h.set s.arr ((readArr h s.arr).set (s.off + i) c)

/-- Allocate a fresh backing array holding `content`. -/
def halloc (h : Heap) (content : List Char) : Heap × Nat :=
  (h ++ [content], h.length)

/-- `make([]rune, n)`: fresh zeroed array, length = capacity = `n`. -/
def gmake (h : Heap) (n : Nat) : Heap × GoSlice :=
  let hi := halloc h (List.replicate n noChar)
  (hi.1, ⟨hi.2, 0, n, n⟩)

/-- The runes a slice denotes. -/
def sview (h : Heap) (s : GoSlice) : List Char :=
  ((readArr h s.arr).drop s.off).take s.len

/-- Overwrite `a` from position `k` with `xs`, never growing `a`. -/
def splice (a : List Char) (k : Nat) (xs : List Char) : List Char :=
  a.take k ++ xs.take (a.length - k) ++ a.drop (k + xs.length)

/-- `copy(dst, src)`: writes `src` over the start of `dst`'s view. -/
def gcopy (h : Heap) (dst : GoSlice) (src : List Char) : Heap :=
  h.set dst.arr (splice (readArr h dst.arr) dst.off (src.take dst.len))

/-- `append(s, c)`: write in place below capacity, else reallocate into a
fresh larger array (capacity doubling; Go's exact growth policy is
implementation-defined and does not affect the stated theorems). -/
def gappend1 (h : Heap) (s : GoSlice) (c : Char) : Heap × GoSlice :=
  if s.len < s.cap then
    (swrite h s s.len c, ⟨s.arr, s.off, s.len + 1, s.cap⟩)
  else
    (h ++ [sview h s ++ [c] ++
       List.replicate (max (2 * s.cap) (s.len + 1) - (s.len + 1)) noChar],
     ⟨h.length, 0, s.len + 1, max (2 * s.cap) (s.len + 1)⟩)

/-- `append(s, body...)`. -/
def gappendMany (h : Heap) (s : GoSlice) (cs : List Char) : Heap × GoSlice :=
  cs.foldl (fun hs c => gappend1 hs.1 hs.2 c) (h, s)

/-- The backward harmony scan (source lines 172–180) over the slice:
`scanGo h s n` performs the loop `for i := n-1; i >= 0; i--`. -/
def scanGo (h : Heap) (s : GoSlice) : Nat → Bool × Bool
  | 0 => (false, false)
  | k + 1 =>
    let c := sread h s k
    if isExactVowelP c then ((vowel_to_quality c).front, (vowel_to_quality c).round)
    else scanGo h s k

/-- The forward resolution loop (source lines 182–196) over the slice:
`rem` counts the remaining iterations, `s.len - 1 - i` at entry (the
slice header, hence the loop bound, is fixed during the loop; only
element writes happen).  Returns the heap and the final harmony
context. -/
def loopGo (s : GoSlice) : Nat → Heap → Nat → Bool → Bool → Heap × Bool × Bool
  | 0, h, _, front, round => (h, front, round)
  | rem + 1, h, i, front, round =>
    if isVowelP (sread h s i) then
      loopGo s rem (swrite h s i (resolve_vowel (sread h s i) front round).2) (i + 1)
        (resolve_vowel (sread h s i) front round).1.front
        (resolve_vowel (sread h s i) front round).1.round
    else
      loopGo s rem
        (swrite h s i (resolve_cons (if i = 0 then noChar else sread h s (i - 1))
          (sread h s i) (sread h s (i + 1)))) (i + 1) front round

/-- Source lines 154–155: `s := make([]rune, len(stem)); copy(s, stem)`. -/
def copy_stage (h0 : Heap) (stem : GoSlice) : Heap × GoSlice :=
  (gcopy (gmake h0 stem.len).1 (gmake h0 stem.len).2
     (sview (gmake h0 stem.len).1 stem),
   (gmake h0 stem.len).2)

/-- Source line 158: conditional head append. -/
def head_stage (su : Suffix) (hs : Heap × GoSlice) : Heap × GoSlice :=
  if su.Head ≠ noChar ∧ (isVowelP (sread hs.1 hs.2 (hs.2.len - 1)) ≠ isVowelP su.Head)
  then gappend1 hs.1 hs.2 su.Head else hs

/-- Source line 163: conditional reslice `s = s[:len(s)-1]`. -/
def elide_stage (su : Suffix) (hs : Heap × GoSlice) : Heap × GoSlice :=
  if isVowelP (sread hs.1 hs.2 (hs.2.len - 1)) ∧ su.Body ≠ [] ∧
      isVowelP (su.Body.headD noChar)
  then (hs.1, ⟨hs.2.arr, hs.2.off, hs.2.len - 1, hs.2.cap⟩) else hs

/-- Source line 167: `s = append(s, suffix.Body...)`. -/
def body_stage (su : Suffix) (hs : Heap × GoSlice) : Heap × GoSlice :=
  gappendMany hs.1 hs.2 su.Body

/-- Source lines 168–170: conditional tail append of `N`. -/
def tail_stage (su : Suffix) (hs : Heap × GoSlice) : Heap × GoSlice :=
  if su.Tail ≠ noChar then gappend1 hs.1 hs.2 'N' else hs

/-- Source lines 198–200: the final vowel fix-up after the loop. -/
def final_fix (s : GoSlice) (lp : Heap × Bool × Bool) : Heap :=
  if isVowelP (sread lp.1 s (s.len - 1))
  then swrite lp.1 s (s.len - 1)
    (resolve_vowel (sread lp.1 s (s.len - 1)) lp.2.1 lp.2.2).2
  else lp.1

/-- Composition of the scan, the loop, and the final fix-up. -/
def fix_stage (n : Nat) (hs : Heap × GoSlice) : Heap × GoSlice :=
  (final_fix hs.2 (loopGo hs.2 (hs.2.len - 1 - (n - 1)) hs.1 (n - 1)
     (scanGo hs.1 hs.2 n).1 (scanGo hs.1 hs.2 n).2),
   hs.2)

/-- `Stem.Append` transcribed over the slice model, statement by
statement: make a fresh buffer, copy the stem, conditionally append the
head, conditionally reslice away the final vowel, append the body and
tail, then scan and resolve in place. -/
def AppendGo (h0 : Heap) (stem : GoSlice) (su : Suffix) : Heap × GoSlice :=
  fix_stage stem.len
    (tail_stage su (body_stage su (elide_stage su (head_stage su (copy_stage h0 stem)))))

/- Consistency of the slice model with the functional definition, on a
concrete run. -/
example :
    (fun r => (sview r.1 r.2, readArr r.1 0))
      (AppendGo ["başla".toList] ⟨0, 0, 5, 5⟩ ⟨noChar, noChar, ['I', 'y', 'o', 'r']⟩) =
    ("başlıyor".toList, "başla".toList) := by decide

/-! ## Claim theorems -/

/-- Claim C1: folding the root `yap` through `Append` with the suffixes
parsed from `Iyor`, `(y)sA` and `(I)m`, in that order, then finalizing
with `Word`, yields exactly the word `yapıyorsam`. -/
theorem claim_C1_yap_chain :
    (ParseRoot "yap".toList).bind (fun r =>
      (ParseSuffix "Iyor".toList).bind (fun s1 =>
        (ParseSuffix "(y)sA".toList).bind (fun s2 =>
          (ParseSuffix "(I)m".toList).map (fun s3 =>
            Stem.Word (Stem.Append (Stem.Append (Stem.Append r s1) s2) s3))))) =
    some "yapıyorsam".toList := by decide

/-- Claim C2 (code bug): `Word` on a stem with a trailing nasal
placeholder `N` does not drop the placeholder; `resolve_cons` returns the
zero rune for `N` at the end-of-word boundary and `Word` writes that
sentinel back into the final position, so the result `['b','u',0]` still
contains a non-exact sentinel character, contradicting the claim (and the
source's own comment that a `Word` only contains exact characters). -/
theorem claim_C2_trailing_N_sentinel :
    Stem.Word ['b', 'u', 'N'] = ['b', 'u', noChar] ∧ ¬ isExact noChar := by decide

/-- Claim C3: for a consonant placeholder `B/C/D/K`, `resolve_cons`
yields the voiced form exactly when `next` is a vowel, `prev` is present
and `prev` is not voiceless, and the voiceless form otherwise; a result
of `g` after a vowel becomes `ğ`. -/
theorem claim_C3_consonant_mutation (prev next c : Char)
    (hc : c = 'B' ∨ c = 'C' ∨ c = 'D' ∨ c = 'K') :
    resolve_cons prev c next =
      (let r := if isVowelP next ∧ prev ≠ noChar ∧ ¬ voicelessP prev then
                  (if c = 'B' then 'b' else if c = 'C' then 'c'
                   else if c = 'D' then 'd' else 'g')
                else (if c = 'B' then 'p' else if c = 'C' then 'ç'
                      else if c = 'D' then 't' else 'k')
       if r = 'g' ∧ isVowelP prev then 'ğ' else r) := by
  rcases hc with rfl | rfl | rfl | rfl <;>
    simp only [resolve_cons, cons_mutate, g_soften, n_resolve] <;>
    split_ifs <;> simp_all

/-- Witness for claim C3 at `prev = a`, `c = K`, `next = I`: the voiced
form `g` softens to `ğ` after the vowel. -/
theorem claim_C3_witness :
    (('K' : Char) = 'B' ∨ ('K' : Char) = 'C' ∨ ('K' : Char) = 'D' ∨ ('K' : Char) = 'K') ∧
      resolve_cons 'a' 'K' 'I' = 'ğ' :=
  ⟨by decide, (claim_C3_consonant_mutation 'a' 'I' 'K' (by decide)).trans (by decide)⟩

/-- Claim C6: with a set head, the head is appended iff the
vowel/consonant class of the stem's final rune differs from the head's
class; a class-matching head is dropped entirely, and an inserted head
never creates a vowel-vowel or consonant-consonant adjacency. -/
theorem claim_C6_head_complementarity (stem : Stem) (su : Suffix)
    (_hne : stem ≠ []) (hh : su.Head ≠ noChar) :
    (head_step stem su = stem ++ [su.Head] ∨ head_step stem su = stem) ∧
    (head_step stem su = stem ++ [su.Head] ↔
      isVowelP (stem.getLastD noChar) ≠ isVowelP su.Head) ∧
    (head_step stem su = stem ++ [su.Head] →
      ¬ (isVowelP (stem.getLastD noChar) ∧ isVowelP su.Head) ∧
      ¬ (¬ isVowelP (stem.getLastD noChar) ∧ ¬ isVowelP su.Head)) := by
  unfold head_step
  by_cases hC : isVowelP (stem.getLastD noChar) ≠ isVowelP su.Head
  · rw [if_pos ⟨hh, hC⟩]
    exact ⟨Or.inl rfl, ⟨fun _ => hC, fun _ => rfl⟩,
      fun _ => ⟨fun hx => hC (propext (iff_of_true hx.1 hx.2)),
        fun hx => hC (propext (iff_of_false hx.1 hx.2))⟩⟩
  · rw [if_neg (fun hx => hC hx.2)]
    refine ⟨Or.inr rfl, ⟨fun hx => ?_, fun hx => absurd hx hC⟩, fun hx => ?_⟩
    · have := congrArg List.length hx
      simp at this
    · have := congrArg List.length hx
      simp at this

/-- Witness for claim C6 at stem `yap` and suffix `(y)AcAK`: both `p` and
`y` are consonants, so the head is dropped. -/
theorem claim_C6_witness :
    head_step ['y', 'a', 'p'] ⟨'y', noChar, ['A', 'c', 'A', 'K']⟩ =
        ['y', 'a', 'p'] ++ [(⟨'y', noChar, ['A', 'c', 'A', 'K']⟩ : Suffix).Head] ↔
      isVowelP ((['y', 'a', 'p'] : Stem).getLastD noChar) ≠
        isVowelP (⟨'y', noChar, ['A', 'c', 'A', 'K']⟩ : Suffix).Head :=
  (claim_C6_head_complementarity ['y', 'a', 'p'] ⟨'y', noChar, ['A', 'c', 'A', 'K']⟩
    (by decide) (by decide)).2.1

/-- The head-insertion condition of `Stem.Append` (source line 158). -/
def head_appended (stem : Stem) (su : Suffix) : Prop :=
  su.Head ≠ noChar ∧ (isVowelP (stem.getLastD noChar) ≠ isVowelP su.Head)

instance (stem : Stem) (su : Suffix) : Decidable (head_appended stem su) := by
  unfold head_appended; infer_instance

/-- The elision condition of `Stem.Append` (source line 163), evaluated on
the buffer after head handling. -/
def elides (stem : Stem) (su : Suffix) : Prop :=
  isVowelP ((head_step stem su).getLastD noChar) ∧ su.Body ≠ [] ∧
    isVowelP (su.Body.headD noChar)

instance (stem : Stem) (su : Suffix) : Decidable (elides stem su) := by
  unfold elides; infer_instance

/-- The initial harmony context computed by `Stem.Append` (source lines
172–180): the backward scan over the working buffer at the index range of
the original stem. -/
def append_context (stem : Stem) (su : Suffix) : Bool × Bool :=
  harmony_scan (append_buffer stem su) stem.length

/-- Modelled from the spec's words (claim C4): the backness and roundness
of the most recent fully-exact vowel of the ORIGINAL STEM, found by
scanning backward from the position immediately preceding the newly
appended region (that region starts at `len stem` except when elision
removed the stem-final vowel without a head having been inserted, in
which case it starts at `len stem - 1`); back/unrounded when no such
vowel exists. -/
def spec_harmony_context (stem : Stem) (su : Suffix) : Bool × Bool :=
  let r := if elides stem su ∧ ¬ head_appended stem su
           then stem.length - 1 else stem.length
  match (stem.take r).reverse.find? isExactVowelB with
  | some v => ((vowel_to_quality v).front, (vowel_to_quality v).round)
  | none => (false, false)

/-- Claim C4 counterexample: for the stem `ba` and the bare suffix `e`,
the stem-final `a` is elided and the backward scan (whose topmost index
then holds the suffix body's first rune in the working buffer) picks up
the quality of the suffix's own `e`, front/unrounded, whereas the most
recent exact vowel of the original stem preceding the appended region
gives back/unrounded. -/
theorem claim_C4_counterexample :
    append_context ['b', 'a'] ⟨noChar, noChar, ['e']⟩ = (true, false) ∧
    spec_harmony_context ['b', 'a'] ⟨noChar, noChar, ['e']⟩ = (false, false) := by
  decide

/-- The prefix of the working buffer that the backward scan examines: the
original stem, except that under head-less elision its final rune has
been replaced by the first rune of the suffix body. -/
theorem append_buffer_take (stem : Stem) (su : Suffix) (hne : stem ≠ []) :
    (append_buffer stem su).take stem.length =
      if elides stem su ∧ ¬ head_appended stem su
      then stem.dropLast ++ su.Body.take 1
      else stem := by
  by_cases hA : head_appended stem su
  · have hhs : head_step stem su = stem ++ [su.Head] := by
      unfold head_step; exact if_pos hA
    rw [if_neg (fun hx => hx.2 hA)]
    by_cases hE : elides stem su
    · have hE' := hE
      unfold elides at hE'
      rw [hhs] at hE'
      have hel : elision_step (stem ++ [su.Head]) su = stem := by
        unfold elision_step; rw [if_pos hE', List.dropLast_concat]
      unfold append_buffer
      rw [hhs, hel, List.append_assoc, List.take_left' rfl]
    · have hE' : ¬ (isVowelP ((stem ++ [su.Head]).getLastD noChar) ∧ su.Body ≠ [] ∧
          isVowelP (su.Body.headD noChar)) := by
        intro hx; apply hE; unfold elides; rw [hhs]; exact hx
      have hel : elision_step (stem ++ [su.Head]) su = stem ++ [su.Head] := by
        unfold elision_step; rw [if_neg hE']
      unfold append_buffer
      rw [hhs, hel, List.append_assoc, List.append_assoc, List.take_left' rfl]
  · have hhs : head_step stem su = stem := by
      unfold head_step; exact if_neg hA
    by_cases hE : elides stem su
    · have hE' := hE
      unfold elides at hE'
      rw [hhs] at hE'
      have hel : elision_step stem su = stem.dropLast := by
        unfold elision_step; rw [if_pos hE']
      rw [if_pos ⟨hE, hA⟩]
      unfold append_buffer
      rw [hhs, hel, List.append_assoc]
      have hpos : 0 < stem.length := List.length_pos.mpr hne
      have hlen : stem.length = stem.dropLast.length + 1 := by
        rw [List.length_dropLast]; omega
      rw [hlen, List.take_append]
      obtain ⟨b0, brest, hb⟩ := List.exists_cons_of_ne_nil hE'.2.1
      rw [hb]
      simp
    · have hE' : ¬ (isVowelP (stem.getLastD noChar) ∧ su.Body ≠ [] ∧
          isVowelP (su.Body.headD noChar)) := by
        intro hx; apply hE; unfold elides; rw [hhs]; exact hx
      have hel : elision_step stem su = stem := by
        unfold elision_step; rw [if_neg hE']
      rw [if_neg (fun hx => hE hx.1)]
      unfold append_buffer
      rw [hhs, hel, List.append_assoc, List.take_left' rfl]

/-- Claim C4, amended: the initial harmony context equals the spec's
backward scan over the original stem — except that when the stem-final
vowel is elided with no head inserted and the suffix body begins with an
exact vowel, the scan (which reads the working buffer) picks up the
quality of that body vowel instead. -/
theorem claim_C4_amended (stem : Stem) (su : Suffix) (hne : stem ≠ []) :
    append_context stem su =
      if elides stem su ∧ ¬ head_appended stem su ∧
          isExactVowelP (su.Body.headD noChar)
      then ((vowel_to_quality (su.Body.headD noChar)).front,
            (vowel_to_quality (su.Body.headD noChar)).round)
      else spec_harmony_context stem su := by
  unfold append_context harmony_scan spec_harmony_context
  rw [append_buffer_take stem su hne]
  by_cases hEA : elides stem su ∧ ¬ head_appended stem su
  · rw [if_pos hEA]
    obtain ⟨b0, brest, hb⟩ := List.exists_cons_of_ne_nil hEA.1.2.1
    rw [hb]
    simp only [List.take_succ_cons, List.take_zero, List.headD_cons, List.reverse_append,
      List.reverse_cons, List.reverse_nil, List.nil_append, List.cons_append]
    by_cases hv : isExactVowelP b0
    · rw [List.find?_cons_of_pos _ (by simpa [isExactVowelB] using hv),
        if_pos ⟨hEA.1, hEA.2, hv⟩]
    · rw [List.find?_cons_of_neg _ (by simpa [isExactVowelB] using hv),
        if_neg (fun hx => hv hx.2.2), if_pos hEA, List.dropLast_eq_take]
  · rw [if_neg hEA, if_neg (fun hx => hEA ⟨hx.1, hx.2.1⟩), if_neg hEA]
    simp [List.take_length]

/-- Witness for claim C4's amended statement at the counterexample input
`ba` + bare suffix `e`: the context is the body vowel's quality. -/
theorem claim_C4_witness :
    append_context ['b', 'a'] ⟨noChar, noChar, ['e']⟩ = (true, false) :=
  (claim_C4_amended ['b', 'a'] ⟨noChar, noChar, ['e']⟩ (by decide)).trans (by decide)

/-- Claim C7: when the buffer's final rune after head handling is a vowel
and the suffix body begins with a vowel, the final rune is deleted before
the body is appended; in particular `başla` + `Iyor` yields
`başlıyor`. -/
theorem claim_C7_vowel_elision :
    (∀ (stem : Stem) (su : Suffix),
       isVowelP ((head_step stem su).getLastD noChar) →
       su.Body ≠ [] → isVowelP (su.Body.headD noChar) →
       append_buffer stem su = (head_step stem su).dropLast ++ su.Body ++
         (if su.Tail ≠ noChar then ['N'] else [])) ∧
    Stem.Append "başla".toList ⟨noChar, noChar, ['I', 'y', 'o', 'r']⟩ =
      "başlıyor".toList := by
  constructor
  · intro stem su h1 h2 h3
    unfold append_buffer elision_step
    rw [if_pos ⟨h1, h2, h3⟩]
  · decide

/-- Witness for claim C7's universal part at `başla` + `Iyor`: the
buffer drops the final `a` before appending the body. -/
theorem claim_C7_witness :
    append_buffer "başla".toList ⟨noChar, noChar, ['I', 'y', 'o', 'r']⟩ =
      "başlIyor".toList :=
  (claim_C7_vowel_elision.1 "başla".toList ⟨noChar, noChar, ['I', 'y', 'o', 'r']⟩
    (by decide) (by decide) (by decide)).trans (by decide)

/-! ## Exact characters are stable under resolution (except `g`) -/

/-- The exact alphabet contains no placeholder and not the zero rune. -/
theorem exact_not_special : ∀ c ∈ exactChars,
    c ≠ 'A' ∧ c ≠ 'I' ∧ c ≠ 'B' ∧ c ≠ 'C' ∧ c ≠ 'D' ∧ c ≠ 'K' ∧ c ≠ 'N' ∧
      c ≠ noChar := by decide

/-- `cons_mutate` only rewrites the four obstruent placeholders. -/
theorem cons_mutate_other (prev next c : Char)
    (h : c ≠ 'B' ∧ c ≠ 'C' ∧ c ≠ 'D' ∧ c ≠ 'K') : cons_mutate prev c next = c := by
  obtain ⟨h1, h2, h3, h4⟩ := h
  unfold cons_mutate
  split_ifs <;> simp_all

/-- `g_soften` only rewrites `g`. -/
theorem g_soften_other (prev c : Char) (h : c ≠ 'g') : g_soften prev c = c := by
  unfold g_soften
  exact if_neg (fun hx => h hx.2)

/-- `n_resolve` only rewrites `N`. -/
theorem n_resolve_other (next c : Char) (h : c ≠ 'N') : n_resolve next c = c := by
  unfold n_resolve
  exact if_neg h

/-- An exact character other than `g` passes through `resolve_cons`
unchanged, whatever its neighbours. -/
theorem resolve_cons_exact_fix (prev next c : Char) (hex : isExact c)
    (hg : c ≠ 'g') : resolve_cons prev c next = c := by
  obtain ⟨_, _, hB, hC, hD, hK, hN, _⟩ := exact_not_special c hex
  unfold resolve_cons
  rw [cons_mutate_other prev next c ⟨hB, hC, hD, hK⟩, g_soften_other prev c hg,
    n_resolve_other next c hN]

/-- A vowel that is not a placeholder passes through `resolve_vowel`
unchanged. -/
theorem resolve_vowel_exact_fix (c : Char) (f r : Bool) (hA : c ≠ 'A')
    (hI : c ≠ 'I') : (resolve_vowel c f r).2 = c := by
  simp [resolve_vowel, hA, hI]

/-- The forward pass leaves every exact character other than `g` in place
(the final element is possibly vowel-resolved, which also fixes exact
vowels). -/
theorem resolve_run_keeps_exact (l : List Char) : ∀ (prev : Char) (f r : Bool)
    (j : Nat) (c : Char), l[j]? = some c → isExact c → c ≠ 'g' →
    (resolve_run prev f r l)[j]? = some c := by
  induction l with
  | nil => intro prev f r j c hb _ _; simp at hb
  | cons c0 tl ih =>
    intro prev f r j c hb hex hg
    have hfix : ∀ f2 r2 : Bool,
        (if isVowelP c then (resolve_vowel c f2 r2).2 else c) = c := by
      intro f2 r2
      obtain ⟨hA, hI, _⟩ := exact_not_special c hex
      split_ifs
      · exact resolve_vowel_exact_fix c f2 r2 hA hI
      · rfl
    cases tl with
    | nil =>
      cases j with
      | zero =>
        simp only [List.getElem?_cons_zero, Option.some.injEq] at hb
        subst hb
        simp [resolve_run, hfix]
      | succ k => simp at hb
    | cons c2 rest =>
      cases j with
      | zero =>
        simp only [List.getElem?_cons_zero, Option.some.injEq] at hb
        subst hb
        unfold resolve_run
        split_ifs with hvc
        · simp [resolve_vowel_exact_fix c0 f r (exact_not_special c0 hex).1
            (exact_not_special c0 hex).2.1]
        · simp [resolve_cons_exact_fix prev c2 c0 hex hg]
      | succ k =>
        simp only [List.getElem?_cons_succ] at hb
        unfold resolve_run
        split_ifs with hvc
        · simpa using ih _ _ _ k c hb hex hg
        · simpa using ih _ _ _ k c hb hex hg

/-- Claim C5 counterexample: appending the bare suffix `gil` to the stem
`ana` puts the exact character `g` at index 3, inside the scanned region
`[2, 4]`, yet the returned stem holds `ğ` there: `resolve_cons` rewrites
an exact intervocalic `g`. -/
theorem claim_C5_counterexample :
    append_buffer ['a', 'n', 'a'] ⟨noChar, noChar, ['g', 'i', 'l']⟩ =
        ['a', 'n', 'a', 'g', 'i', 'l'] ∧
    isExact 'g' ∧
    Stem.Append ['a', 'n', 'a'] ⟨noChar, noChar, ['g', 'i', 'l']⟩ =
        ['a', 'n', 'a', 'ğ', 'i', 'l'] := by decide

/-- Claim C5, amended: every exact character of the working buffer other
than `g` appears unchanged at its position in the returned stem; an exact
`g` whose left neighbour is a vowel is rewritten to `ğ`. -/
theorem claim_C5_amended (stem : Stem) (su : Suffix) (j : Nat) (c : Char)
    (hb : (append_buffer stem su)[j]? = some c) (hex : isExact c)
    (hg : c ≠ 'g') : (Stem.Append stem su)[j]? = some c := by
  have hjlen : j < (append_buffer stem su).length := by
    by_contra hcon
    rw [List.getElem?_eq_none (by omega)] at hb
    exact Option.noConfusion hb
  simp only [Stem.Append]
  set buf := append_buffer stem su with hbuf
  set k := stem.length - 1 with hk
  by_cases hj : j < k
  · rw [List.getElem?_append_left (by
      rw [List.length_take]
      exact lt_min hj hjlen)]
    rw [List.getElem?_take_of_lt hj]
    exact hb
  · push_neg at hj
    have hkb : k ≤ buf.length := le_trans hj (le_of_lt hjlen)
    have hlen1 : (buf.take k).length = k := by
      rw [List.length_take]; exact min_eq_left hkb
    rw [List.getElem?_append_right (by rw [hlen1]; exact hj), hlen1]
    apply resolve_run_keeps_exact (buf.drop k) _ _ _ (j - k) c _ hex hg
    rw [List.getElem?_drop]
    rwa [Nat.add_sub_cancel' hj]

/-- Witness for claim C5's amended statement: the exact `i` at index 4 of
the `ana` + `gil` buffer survives into the result. -/
theorem claim_C5_witness :
    (append_buffer ['a', 'n', 'a'] ⟨noChar, noChar, ['g', 'i', 'l']⟩)[4]? = some 'i' ∧
    isExact 'i' ∧ ('i' : Char) ≠ 'g' ∧
    (Stem.Append ['a', 'n', 'a'] ⟨noChar, noChar, ['g', 'i', 'l']⟩)[4]? = some 'i' :=
  ⟨by decide, by decide, by decide,
    claim_C5_amended ['a', 'n', 'a'] ⟨noChar, noChar, ['g', 'i', 'l']⟩ 4 'i'
      (by decide) (by decide) (by decide)⟩

/-! ## The stem shape invariant (claim C8) -/

/-- Characters that may legally appear in the working buffer: exact
characters and the six placeholders. -/
def resolvableP (c : Char) : Prop :=
  isExact c ∨ c ∈ (['A', 'I', 'B', 'C', 'D', 'K', 'N'] : List Char)

instance (c : Char) : Decidable (resolvableP c) := by unfold resolvableP; infer_instance

/-- Well-formed stem: non-empty, every character except the last exact,
and the last exact or one of the `B/C/D/K/N` placeholders. -/
def WFStem (l : Stem) : Prop :=
  l ≠ [] ∧ (∀ c ∈ l.dropLast, isExact c) ∧
    (isExact (l.getLastD noChar) ∨
      l.getLastD noChar ∈ (['B', 'C', 'D', 'K', 'N'] : List Char))

instance (l : Stem) : Decidable (WFStem l) := by unfold WFStem; infer_instance

/-- Well-formed suffix, as guaranteed by `ParseSuffix`: head absent or in
the suffix alphabet, body characters in the suffix alphabet, tail absent
or the parenthesised nasal. -/
def WFSuffix (su : Suffix) : Prop :=
  (su.Head = noChar ∨ su.Head ∈ suffixChars) ∧ (∀ c ∈ su.Body, c ∈ suffixChars) ∧
    (su.Tail = noChar ∨ su.Tail = 'n')

instance (su : Suffix) : Decidable (WFSuffix su) := by unfold WFSuffix; infer_instance

/-- Suffix-alphabet characters are resolvable. -/
theorem suffixChars_resolvable : ∀ c ∈ suffixChars, resolvableP c := by decide

/-- Resolvable characters are never the zero rune. -/
theorem resolvable_ne_zero (c : Char) (h : resolvableP c) : c ≠ noChar := by
  rcases h with h | h
  · exact (exact_not_special c h).2.2.2.2.2.2.2
  · simp only [List.mem_cons, List.not_mem_nil, or_false] at h
    rcases h with rfl | rfl | rfl | rfl | rfl | rfl | rfl <;> decide

/-- Resolving any vowel under any harmony context yields an exact
vowel. -/
theorem resolve_vowel_exact (c : Char) (hc : isVowelP c) (f r : Bool) :
    isExactVowelP (resolve_vowel c f r).2 ∧ isExact (resolve_vowel c f r).2 := by
  simp only [isVowelP, vowelChars, List.mem_cons, List.not_mem_nil, or_false] at hc
  rcases hc with rfl | rfl | rfl | rfl | rfl | rfl | rfl | rfl | rfl | rfl <;>
    cases f <;> cases r <;> decide

set_option maxHeartbeats 1600000 in
/-- Resolving a resolvable non-vowel with a present right neighbour
yields an exact character. -/
theorem resolve_cons_exact_out (prev next c : Char) (h1 : resolvableP c)
    (h2 : ¬ isVowelP c) (h3 : next ≠ noChar) : isExact (resolve_cons prev c next) := by
  rcases h1 with hex | hmem
  · by_cases hg : c = 'g'
    · subst hg
      obtain ⟨_, _, hB, hC, hD, hK, hN, _⟩ := exact_not_special 'g' hex
      unfold resolve_cons g_soften n_resolve
      rw [cons_mutate_other prev next 'g' ⟨hB, hC, hD, hK⟩]
      split_ifs <;> decide
    · rw [resolve_cons_exact_fix prev next c hex hg]
      exact hex
  · simp only [List.mem_cons, List.not_mem_nil, or_false] at hmem
    rcases hmem with rfl | rfl | rfl | rfl | rfl | rfl | rfl
    · exact absurd (by decide) h2
    · exact absurd (by decide) h2
    · unfold resolve_cons cons_mutate g_soften n_resolve
      split_ifs <;> first | decide | simp_all
    · unfold resolve_cons cons_mutate g_soften n_resolve
      split_ifs <;> first | decide | simp_all
    · unfold resolve_cons cons_mutate g_soften n_resolve
      split_ifs <;> first | decide | simp_all
    · unfold resolve_cons cons_mutate g_soften n_resolve
      split_ifs <;> first | decide | simp_all
    · unfold resolve_cons cons_mutate g_soften n_resolve
      split_ifs <;> first | decide | simp_all

/-- The forward pass preserves length. -/
theorem resolve_run_length (l : List Char) : ∀ (prev : Char) (f r : Bool),
    (resolve_run prev f r l).length = l.length := by
  induction l with
  | nil => intro prev f r; rfl
  | cons c0 tl ih =>
    intro prev f r
    cases tl with
    | nil => rfl
    | cons c2 rest =>
      unfold resolve_run
      split_ifs <;> simpa using ih _ _ _

/-- The forward pass maps a non-empty buffer to a non-empty buffer. -/
theorem resolve_run_ne_nil (l : List Char) (prev : Char) (f r : Bool)
    (h : l ≠ []) : resolve_run prev f r l ≠ [] := by
  intro hcon
  have := resolve_run_length l prev f r
  rw [hcon] at this
  exact h (List.length_eq_zero.mp this.symm)

/-- All but the last character of the forward pass's output are exact,
provided the input is made of resolvable characters. -/
theorem resolve_run_dropLast_exact (l : List Char) : ∀ (prev : Char) (f r : Bool),
    (∀ c ∈ l, resolvableP c) →
    ∀ c ∈ (resolve_run prev f r l).dropLast, isExact c := by
  induction l with
  | nil => intro prev f r _ c hc; simp [resolve_run] at hc
  | cons c0 tl ih =>
    intro prev f r hall c hc
    cases tl with
    | nil => simp [resolve_run] at hc
    | cons c2 rest =>
      have hall2 : ∀ x ∈ c2 :: rest, resolvableP x :=
        fun x hx => hall x (List.mem_cons_of_mem c0 hx)
      have hc0 : resolvableP c0 := hall c0 (List.mem_cons_self c0 (c2 :: rest))
      unfold resolve_run at hc
      split_ifs at hc with hvc
      · rw [List.dropLast_cons_of_ne_nil (resolve_run_ne_nil (c2 :: rest)
          (resolve_vowel c0 f r).2 (resolve_vowel c0 f r).1.front
          (resolve_vowel c0 f r).1.round (by simp))] at hc
        rcases List.mem_cons.mp hc with hceq | hcmem
        · subst hceq
          exact (resolve_vowel_exact c0 hvc f r).2
        · exact ih _ _ _ hall2 c hcmem
      · rw [List.dropLast_cons_of_ne_nil (resolve_run_ne_nil (c2 :: rest)
          (resolve_cons prev c0 c2) f r (by simp))] at hc
        rcases List.mem_cons.mp hc with hceq | hcmem
        · subst hceq
          exact resolve_cons_exact_out prev c2 c0 hc0 hvc
            (resolvable_ne_zero c2 (hall2 c2 (List.mem_cons_self c2 rest)))
        · exact ih _ _ _ hall2 c hcmem

/-- The default value of `getLastD` is irrelevant on a non-empty list. -/
theorem getLastD_default_irrel (l : List Char) (a b : Char) (h : l ≠ []) :
    l.getLastD a = l.getLastD b := by
  cases l with
  | nil => exact absurd rfl h
  | cons x xs => rw [List.getLastD_cons, List.getLastD_cons]

/-- The last character of the forward pass's output is exact or an
allowed trailing placeholder. -/
theorem resolve_run_last (l : List Char) : ∀ (prev : Char) (f r : Bool),
    l ≠ [] → (∀ c ∈ l, resolvableP c) →
    isExact ((resolve_run prev f r l).getLastD noChar) ∨
      (resolve_run prev f r l).getLastD noChar ∈
        (['B', 'C', 'D', 'K', 'N'] : List Char) := by
  induction l with
  | nil => intro prev f r h _; exact absurd rfl h
  | cons c0 tl ih =>
    intro prev f r _ hall
    cases tl with
    | nil =>
      show isExact (List.getLastD
          [if isVowelP c0 then (resolve_vowel c0 f r).2 else c0] noChar) ∨
        List.getLastD [if isVowelP c0 then (resolve_vowel c0 f r).2 else c0] noChar ∈
          (['B', 'C', 'D', 'K', 'N'] : List Char)
      rw [List.getLastD_cons, List.getLastD_nil]
      split_ifs with hvc
      · exact Or.inl (resolve_vowel_exact c0 hvc f r).2
      · rcases hall c0 (List.mem_cons_self c0 []) with hex | hmem
        · exact Or.inl hex
        · simp only [List.mem_cons, List.not_mem_nil, or_false] at hmem
          rcases hmem with rfl | rfl | rfl | rfl | rfl | rfl | rfl <;>
            first | exact absurd (by decide) hvc | (right; decide)
    | cons c2 rest =>
      have hall2 : ∀ x ∈ c2 :: rest, resolvableP x :=
        fun x hx => hall x (List.mem_cons_of_mem c0 hx)
      unfold resolve_run
      split_ifs with hvc
      · have hne := resolve_run_ne_nil (c2 :: rest) (resolve_vowel c0 f r).2
          (resolve_vowel c0 f r).1.front (resolve_vowel c0 f r).1.round (by simp)
        rw [List.getLastD_cons,
          getLastD_default_irrel _ _ noChar hne]
        exact ih _ _ _ (by simp) hall2
      · have hne := resolve_run_ne_nil (c2 :: rest) (resolve_cons prev c0 c2) f r (by simp)
        rw [List.getLastD_cons,
          getLastD_default_irrel _ _ noChar hne]
        exact ih _ _ _ (by simp) hall2

/-- Splitting a non-empty list at its last element. -/
theorem dropLast_getLastD (l : List Char) (h : l ≠ []) :
    l.dropLast ++ [l.getLastD noChar] = l := by
  induction l with
  | nil => exact absurd rfl h
  | cons x xs ih =>
    cases xs with
    | nil => rfl
    | cons y ys =>
      rw [List.dropLast_cons_of_ne_nil (by simp), List.getLastD_cons,
        getLastD_default_irrel _ x noChar (by simp), List.cons_append,
        ih (by simp)]

/-- `dropLast` over an append with a non-empty right part. -/
theorem dropLast_append_left (a b : List Char) (h : b ≠ []) :
    (a ++ b).dropLast = a ++ b.dropLast := by
  induction a with
  | nil => rfl
  | cons x xs ih =>
    rw [List.cons_append, List.dropLast_cons_of_ne_nil
      (fun hc => h (List.append_eq_nil.mp hc).2), ih, List.cons_append]

/-- `getLastD` over an append with a non-empty right part. -/
theorem getLastD_append_right (a b : List Char) (d : Char) (h : b ≠ []) :
    (a ++ b).getLastD d = b.getLastD d := by
  induction a with
  | nil => rfl
  | cons x xs ih =>
    rw [List.cons_append, List.getLastD_cons,
      getLastD_default_irrel _ x d (fun hc => h (List.append_eq_nil.mp hc).2), ih]

/-- The working buffer decomposes as the stem minus its final rune,
followed by a non-empty run of resolvable characters (the stem's final
rune when not elided, the inserted head, the body and the tail). -/
theorem append_buffer_decomp (stem : Stem) (su : Suffix) (hne : stem ≠ [])
    (hlast : resolvableP (stem.getLastD noChar))
    (hhead : su.Head = noChar ∨ su.Head ∈ suffixChars)
    (hbody : ∀ c ∈ su.Body, c ∈ suffixChars) :
    ∃ rest, append_buffer stem su = stem.dropLast ++ rest ∧ rest ≠ [] ∧
      ∀ c ∈ rest, resolvableP c := by
  have htail : ∀ c ∈ (if su.Tail ≠ noChar then (['N'] : List Char) else []),
      resolvableP c := by
    split_ifs
    · intro c hc
      simp only [List.mem_cons, List.not_mem_nil, or_false] at hc
      subst hc
      right
      decide
    · intro c hc
      simp at hc
  have hbody' : ∀ c ∈ su.Body, resolvableP c :=
    fun c hc => suffixChars_resolvable c (hbody c hc)
  have hmix : ∀ c ∈ su.Body ++ (if su.Tail ≠ noChar then (['N'] : List Char) else []),
      resolvableP c := by
    intro c hc
    rcases List.mem_append.mp hc with hc | hc
    · exact hbody' c hc
    · exact htail c hc
  by_cases hA : head_appended stem su
  · have hhs : head_step stem su = stem ++ [su.Head] := if_pos hA
    have hHr : resolvableP su.Head :=
      suffixChars_resolvable su.Head (hhead.resolve_left (fun hx => absurd hx hA.1))
    by_cases hE : isVowelP ((stem ++ [su.Head]).getLastD noChar) ∧ su.Body ≠ [] ∧
        isVowelP (su.Body.headD noChar)
    · have hel : elision_step (head_step stem su) su = stem := by
        rw [hhs]; unfold elision_step; rw [if_pos hE, List.dropLast_concat]
      refine ⟨stem.getLastD noChar ::
        (su.Body ++ (if su.Tail ≠ noChar then (['N'] : List Char) else [])), ?_, by simp, ?_⟩
      · unfold append_buffer
        rw [hel, List.append_assoc]
        conv_lhs => rw [← dropLast_getLastD stem hne]
        rw [List.append_assoc]
        rfl
      · intro c hc
        rcases List.mem_cons.mp hc with rfl | hc
        · exact hlast
        · exact hmix c hc
    · have hel : elision_step (head_step stem su) su = stem ++ [su.Head] := by
        rw [hhs]; unfold elision_step; rw [if_neg hE]
      refine ⟨stem.getLastD noChar :: su.Head ::
        (su.Body ++ (if su.Tail ≠ noChar then (['N'] : List Char) else [])), ?_, by simp, ?_⟩
      · unfold append_buffer
        rw [hel, List.append_assoc, List.append_assoc]
        conv_lhs => rw [← dropLast_getLastD stem hne]
        rw [List.append_assoc]
        rfl
      · intro c hc
        rcases List.mem_cons.mp hc with rfl | hc
        · exact hlast
        · rcases List.mem_cons.mp hc with rfl | hc
          · exact hHr
          · exact hmix c hc
  · have hhs : head_step stem su = stem := if_neg hA
    by_cases hE : isVowelP (stem.getLastD noChar) ∧ su.Body ≠ [] ∧
        isVowelP (su.Body.headD noChar)
    · have hel : elision_step (head_step stem su) su = stem.dropLast := by
        rw [hhs]; unfold elision_step; rw [if_pos hE]
      refine ⟨su.Body ++ (if su.Tail ≠ noChar then (['N'] : List Char) else []), ?_,
        fun hc => hE.2.1 (List.append_eq_nil.mp hc).1, hmix⟩
      unfold append_buffer
      rw [hel, List.append_assoc]
    · have hel : elision_step (head_step stem su) su = stem := by
        rw [hhs]; unfold elision_step; rw [if_neg hE]
      refine ⟨stem.getLastD noChar ::
        (su.Body ++ (if su.Tail ≠ noChar then (['N'] : List Char) else [])), ?_, by simp, ?_⟩
      · unfold append_buffer
        rw [hel, List.append_assoc]
        conv_lhs => rw [← dropLast_getLastD stem hne]
        rw [List.append_assoc]
        rfl
      · intro c hc
        rcases List.mem_cons.mp hc with rfl | hc
        · exact hlast
        · exact hmix c hc

/-- Claim C8: `Append` preserves the stem shape — for a non-empty stem
whose characters are all exact except possibly a final `B/C/D/K/N`
placeholder, and any well-formed suffix, the returned stem has the same
shape. -/
theorem claim_C8_shape_invariant (stem : Stem) (su : Suffix) (hs : WFStem stem)
    (hsu : WFSuffix su) : WFStem (Stem.Append stem su) := by
  obtain ⟨hne, hdropE, hlastE⟩ := hs
  obtain ⟨hhead, hbody, _⟩ := hsu
  have hlast : resolvableP (stem.getLastD noChar) := by
    rcases hlastE with h | h
    · exact Or.inl h
    · right
      simp only [List.mem_cons, List.not_mem_nil, or_false] at h ⊢
      tauto
  obtain ⟨rest, hb, hrne, hres⟩ := append_buffer_decomp stem su hne hlast hhead hbody
  have hlen : stem.dropLast.length = stem.length - 1 := List.length_dropLast stem
  have htake : (append_buffer stem su).take (stem.length - 1) = stem.dropLast := by
    rw [hb]; exact List.take_left' hlen
  have hdrop : (append_buffer stem su).drop (stem.length - 1) = rest := by
    rw [hb]; exact List.drop_left' hlen
  have happ : Stem.Append stem su = stem.dropLast ++
      resolve_run (if stem.length - 1 = 0 then noChar
                   else (append_buffer stem su).getD (stem.length - 2) noChar)
        (harmony_scan (append_buffer stem su) stem.length).1
        (harmony_scan (append_buffer stem su) stem.length).2 rest := by
    simp only [Stem.Append]
    rw [htake, hdrop]
  have hRne := resolve_run_ne_nil rest
    (if stem.length - 1 = 0 then noChar
     else (append_buffer stem su).getD (stem.length - 2) noChar)
    (harmony_scan (append_buffer stem su) stem.length).1
    (harmony_scan (append_buffer stem su) stem.length).2 hrne
  refine ⟨?_, ?_, ?_⟩
  · rw [happ]
    intro hcon
    exact hRne (List.append_eq_nil.mp hcon).2
  · rw [happ, dropLast_append_left _ _ hRne]
    intro c hc
    rcases List.mem_append.mp hc with hc | hc
    · exact hdropE c hc
    · exact resolve_run_dropLast_exact rest _ _ _ hres c hc
  · rw [happ, getLastD_append_right _ _ noChar hRne]
    exact resolve_run_last rest _ _ _ hrne hres

/-- Witness for claim C8 at the stem `yap` and the suffix `(y)AcAK`. -/
theorem claim_C8_witness :
    WFStem ['y', 'a', 'p'] ∧ WFSuffix ⟨'y', noChar, ['A', 'c', 'A', 'K']⟩ ∧
      WFStem (Stem.Append ['y', 'a', 'p'] ⟨'y', noChar, ['A', 'c', 'A', 'K']⟩) :=
  ⟨by decide, by decide,
    claim_C8_shape_invariant ['y', 'a', 'p'] ⟨'y', noChar, ['A', 'c', 'A', 'K']⟩
      (by decide) (by decide)⟩

/-! ## Frame property of the slice model (claim C9) -/

/-- Heap cells other than the written slice's array are untouched. -/
theorem readArr_set_ne (h : Heap) (id j : Nat) (x : List Char) (hne : id ≠ j) :
    readArr (h.set id x) j = readArr h j := by
  simp [readArr, List.getD_eq_getElem?_getD, List.getElem?_set_ne hne]

/-- Existing heap cells survive an allocation. -/
theorem readArr_append_lt (h : Heap) (x : List Char) (j : Nat) (hj : j < h.length) :
    readArr (h ++ [x]) j = readArr h j := by
  simp [readArr, List.getD_eq_getElem?_getD, List.getElem?_append_left hj]

/-- Frame invariant: the heap has not shrunk, the current slice's backing
array is a fresh one (beyond the original heap), and every original heap
cell is unchanged. -/
def HPres (h0 : Heap) (hs : Heap × GoSlice) : Prop :=
  h0.length ≤ hs.1.length ∧ h0.length ≤ hs.2.arr ∧
    ∀ j < h0.length, readArr hs.1 j = readArr h0 j

/-- `swrite` never changes the heap's length. -/
theorem swrite_length (h : Heap) (s : GoSlice) (i : Nat) (c : Char) :
    (swrite h s i c).length = h.length := by
  simp [swrite]

/-- Heap cells other than the written slice's array survive `swrite`. -/
theorem readArr_swrite_ne (h : Heap) (s : GoSlice) (i : Nat) (c : Char) (j : Nat)
    (hj : j ≠ s.arr) : readArr (swrite h s i c) j = readArr h j := by
  unfold swrite
  exact readArr_set_ne _ _ _ _ (Ne.symm hj)

/-- `swrite` to a fresh-array slice preserves the frame. -/
theorem HPres_swrite (h0 : Heap) (h : Heap) (s : GoSlice) (i : Nat) (c : Char)
    (hp : HPres h0 (h, s)) : HPres h0 (swrite h s i c, s) := by
  have h1 : h0.length ≤ h.length := hp.1
  have h2 : h0.length ≤ s.arr := hp.2.1
  have h3 : ∀ j < h0.length, readArr h j = readArr h0 j := hp.2.2
  refine ⟨by rw [swrite_length]; exact h1, h2, fun j hj => ?_⟩
  rw [readArr_swrite_ne _ _ _ _ _ (by omega)]
  exact h3 j hj

/-- `gappend1` preserves the frame. -/
theorem HPres_gappend1 (h0 : Heap) (h : Heap) (s : GoSlice) (c : Char)
    (hp : HPres h0 (h, s)) : HPres h0 (gappend1 h s c) := by
  have h1 : h0.length ≤ h.length := hp.1
  have h2 : h0.length ≤ s.arr := hp.2.1
  have h3 : ∀ j < h0.length, readArr h j = readArr h0 j := hp.2.2
  unfold gappend1
  split_ifs with hcap
  · exact HPres_swrite h0 h s s.len c hp
  · refine ⟨by simp; omega, by simp; omega, fun j hj => ?_⟩
    rw [readArr_append_lt _ _ _ (by omega)]
    exact h3 j hj

/-- `gappendMany` preserves the frame. -/
theorem HPres_gappendMany (h0 : Heap) (cs : List Char) : ∀ (h : Heap) (s : GoSlice),
    HPres h0 (h, s) → HPres h0 (gappendMany h s cs) := by
  induction cs with
  | nil => intro h s hp; exact hp
  | cons c cs ih =>
    intro h s hp
    have step := HPres_gappend1 h0 h s c hp
    have : gappendMany h s (c :: cs) =
        gappendMany (gappend1 h s c).1 (gappend1 h s c).2 cs := by
      unfold gappendMany
      rw [List.foldl_cons]
    rw [this]
    exact ih _ _ step

/-- The forward resolution loop preserves the frame (it only writes the
current slice's array and never changes heap length). -/
theorem HPres_loopGo (h0 : Heap) (s : GoSlice) (hs : h0.length ≤ s.arr) :
    ∀ (rem : Nat) (h : Heap) (i : Nat) (f r : Bool),
    h0.length ≤ h.length → (∀ j < h0.length, readArr h j = readArr h0 j) →
    h0.length ≤ (loopGo s rem h i f r).1.length ∧
      ∀ j < h0.length, readArr (loopGo s rem h i f r).1 j = readArr h0 j := by
  intro rem
  induction rem with
  | zero => intro h i f r hlen hcells; exact ⟨hlen, hcells⟩
  | succ k ih =>
    intro h i f r hlen hcells
    unfold loopGo
    split_ifs <;>
      exact ih _ _ _ _ (by rw [swrite_length]; exact hlen)
        (fun j hj => by
          rw [readArr_swrite_ne _ _ _ _ _ (by omega)]
          exact hcells j hj)

/-- The copy stage establishes the frame: the buffer is a fresh array. -/
theorem HPres_copy_stage (h0 : Heap) (stem : GoSlice) :
    HPres h0 (copy_stage h0 stem) := by
  unfold copy_stage gcopy gmake halloc
  refine ⟨by simp, by simp, fun j hj => ?_⟩
  rw [readArr_set_ne _ _ _ _ (by simp; omega), readArr_append_lt _ _ _ hj]

/-- The head stage preserves the frame. -/
theorem HPres_head_stage (h0 : Heap) (su : Suffix) (hs : Heap × GoSlice)
    (hp : HPres h0 hs) : HPres h0 (head_stage su hs) := by
  unfold head_stage
  split_ifs
  · exact HPres_gappend1 h0 hs.1 hs.2 su.Head hp
  · exact hp

/-- The elision stage preserves the frame (it only reslices). -/
theorem HPres_elide_stage (h0 : Heap) (su : Suffix) (hs : Heap × GoSlice)
    (hp : HPres h0 hs) : HPres h0 (elide_stage su hs) := by
  unfold elide_stage
  split_ifs
  · exact ⟨hp.1, hp.2.1, hp.2.2⟩
  · exact hp

/-- The body stage preserves the frame. -/
theorem HPres_body_stage (h0 : Heap) (su : Suffix) (hs : Heap × GoSlice)
    (hp : HPres h0 hs) : HPres h0 (body_stage su hs) :=
  HPres_gappendMany h0 su.Body hs.1 hs.2 hp

/-- The tail stage preserves the frame. -/
theorem HPres_tail_stage (h0 : Heap) (su : Suffix) (hs : Heap × GoSlice)
    (hp : HPres h0 hs) : HPres h0 (tail_stage su hs) := by
  unfold tail_stage
  split_ifs
  · exact HPres_gappend1 h0 hs.1 hs.2 'N' hp
  · exact hp

/-- The scan/resolve stage preserves the frame. -/
theorem HPres_fix_stage (h0 : Heap) (n : Nat) (hs : Heap × GoSlice)
    (hp : HPres h0 hs) : HPres h0 (fix_stage n hs) := by
  obtain ⟨h1, h2, h3⟩ := hp
  obtain ⟨hl1, hl2⟩ := HPres_loopGo h0 hs.2 h2 (hs.2.len - 1 - (n - 1)) hs.1 (n - 1)
    (scanGo hs.1 hs.2 n).1 (scanGo hs.1 hs.2 n).2 h1 h3
  unfold fix_stage final_fix
  split_ifs with hv
  · refine ⟨by rw [swrite_length]; exact hl1, h2, fun j hj => ?_⟩
    rw [readArr_swrite_ne _ _ _ _ _ (by omega)]
    exact hl2 j hj
  · exact ⟨hl1, h2, hl2⟩

/-- Claim C9: `Append` never mutates its input stem.  Running the slice
transcription on a heap holding only the stem's backing array leaves that
array's contents exactly as they were, and the returned stem lives in a
freshly allocated array (a different array id). -/
theorem claim_C9_no_mutation (stem : List Char) (su : Suffix) (_hne : stem ≠ []) :
    readArr (AppendGo [stem] ⟨0, 0, stem.length, stem.length⟩ su).1 0 = stem ∧
      (AppendGo [stem] ⟨0, 0, stem.length, stem.length⟩ su).2.arr ≠ 0 := by
  have hp : HPres [stem]
      (AppendGo [stem] ⟨0, 0, stem.length, stem.length⟩ su) := by
    unfold AppendGo
    exact HPres_fix_stage _ _ _ (HPres_tail_stage _ _ _ (HPres_body_stage _ _ _
      (HPres_elide_stage _ _ _ (HPres_head_stage _ _ _
        (HPres_copy_stage [stem] ⟨0, 0, stem.length, stem.length⟩)))))
  have h2 : 1 ≤ (AppendGo [stem] ⟨0, 0, stem.length, stem.length⟩ su).2.arr := by
    simpa using hp.2.1
  refine ⟨?_, by omega⟩
  have := hp.2.2 0 (by simp)
  simpa [readArr] using this

/-- Witness for claim C9 at the stem `yap` and the suffix `Iyor`. -/
theorem claim_C9_witness :
    readArr (AppendGo [['y', 'a', 'p']] ⟨0, 0, 3, 3⟩
        ⟨noChar, noChar, ['I', 'y', 'o', 'r']⟩).1 0 = ['y', 'a', 'p'] ∧
      (AppendGo [['y', 'a', 'p']] ⟨0, 0, 3, 3⟩
        ⟨noChar, noChar, ['I', 'y', 'o', 'r']⟩).2.arr ≠ 0 :=
  claim_C9_no_mutation ['y', 'a', 'p'] ⟨noChar, noChar, ['I', 'y', 'o', 'r']⟩ (by decide)

/-! ## Parser loop properties (claim C10) -/

/-- The suffix loop fails iff some token fails to parse. -/
theorem parseSuffixLoop_none (ws : List (List Char)) (t : List Char)
    (ht : t ∈ ws) (hf : ParseSuffix t = none) : parseSuffixLoop ws = none := by
  induction ws with
  | nil => simp at ht
  | cons w ws ih =>
    rcases List.mem_cons.mp ht with rfl | ht
    · unfold parseSuffixLoop
      rw [hf]
    · unfold parseSuffixLoop
      cases hpw : ParseSuffix w with
      | none => rfl
      | some suf => rw [ih ht]; rfl

/-- A successful suffix loop parses exactly the tokens, in order. -/
theorem parseSuffixLoop_some (ws : List (List Char)) :
    ∀ sufs, parseSuffixLoop ws = some sufs →
    sufs.length = ws.length ∧
      ∀ i, i < ws.length →
        ParseSuffix (ws.getD i []) = some (sufs.getD i ⟨noChar, noChar, []⟩) := by
  induction ws with
  | nil =>
    intro sufs hs
    unfold parseSuffixLoop at hs
    cases hs
    exact ⟨rfl, fun i hi => absurd hi (by simp)⟩
  | cons w ws ih =>
    intro sufs hs
    unfold parseSuffixLoop at hs
    cases hpw : ParseSuffix w with
    | none => rw [hpw] at hs; cases hs
    | some suf =>
      rw [hpw] at hs
      cases hrec : parseSuffixLoop ws with
      | none => rw [hrec] at hs; cases hs
      | some sufs2 =>
        rw [hrec] at hs
        simp at hs
        subst hs
        obtain ⟨hlen, hidx⟩ := ih sufs2 hrec
        refine ⟨by simp [hlen], fun i hi => ?_⟩
        cases i with
        | zero => simpa using hpw
        | succ k =>
          simp only [List.getD_cons_succ]
          exact hidx k (by simpa using hi)

/-- Claim C10: `ParseRootSuffixes` fails on zero tokens; on success the
first token parsed as the root and each later token parsed as a suffix in
textual order, with the count matching; and a failure of the root token
or of any suffix token makes the whole call fail with no partial
result. -/
theorem claim_C10_parse_root_suffixes (l : List Char) :
    (fields l = [] → ParseRootSuffixes l = none) ∧
    (∀ w ws, fields l = w :: ws →
      (ParseRoot w = none → ParseRootSuffixes l = none) ∧
      (∀ t ∈ ws, ParseSuffix t = none → ParseRootSuffixes l = none) ∧
      ∀ root sufs, ParseRootSuffixes l = some (root, sufs) →
        ParseRoot w = some root ∧ sufs.length = ws.length ∧
          ∀ i, i < ws.length →
            ParseSuffix (ws.getD i []) = some (sufs.getD i ⟨noChar, noChar, []⟩)) := by
  constructor
  · intro hf
    unfold ParseRootSuffixes
    rw [hf]
  · intro w ws hf
    have key : ParseRootSuffixes l =
        (match ParseRoot w with
         | none => none
         | some root =>
           match parseSuffixLoop ws with
           | none => none
           | some sufs => some (root, sufs)) := by
      unfold ParseRootSuffixes
      rw [hf]
    refine ⟨fun hr => ?_, fun t ht hps => ?_, fun root sufs hok => ?_⟩
    · rw [key, hr]
    · rw [key, parseSuffixLoop_none ws t ht hps]
      cases ParseRoot w <;> rfl
    · rw [key] at hok
      split at hok
      · cases hok
      · next r2 hr =>
        split at hok
        · cases hok
        · next sufs2 hloop =>
          simp only [Option.some.injEq, Prod.mk.injEq] at hok
          obtain ⟨hok1, hok2⟩ := hok
          subst hok1
          subst hok2
          obtain ⟨hlen, hidx⟩ := parseSuffixLoop_some ws sufs2 hloop
          exact ⟨hr, hlen, hidx⟩

/-- Witness for claim C10: an all-whitespace line fails; a bad suffix
token fails the whole parse; and a good two-token line parses the root
and one suffix. -/
theorem claim_C10_witness :
    ParseRootSuffixes "   ".toList = none ∧
    ParseRootSuffixes "yap 42".toList = none ∧
    ParseRoot "bu(n)".toList = some ['b', 'u', 'N'] ∧
    ([(⟨noChar, noChar, ['l', 'A', 'r']⟩ : Suffix)]).length = ["lAr".toList].length :=
  ⟨(claim_C10_parse_root_suffixes "   ".toList).1 (by decide),
   ((claim_C10_parse_root_suffixes "yap 42".toList).2 "yap".toList ["42".toList]
      (by decide)).2.1 "42".toList (by decide) (by decide),
   (((claim_C10_parse_root_suffixes "bu(n) lAr".toList).2 "bu(n)".toList ["lAr".toList]
      (by decide)).2.2 ['b', 'u', 'N'] [⟨noChar, noChar, ['l', 'A', 'r']⟩]
      (by decide)).1,
   ((((claim_C10_parse_root_suffixes "bu(n) lAr".toList).2 "bu(n)".toList ["lAr".toList]
      (by decide)).2.2 ['b', 'u', 'N'] [⟨noChar, noChar, ['l', 'A', 'r']⟩]
      (by decide)).2.1).trans (by decide)⟩

end TM
